import Mathlib

/-!
Shallow embedding of the tomo-tsp pipeline (src/wave_plate_tsp.ipynb).
Angles and matrix entries are modelled as exact rationals: every value the
pipeline manipulates is an exact half of an integer, hence representable
exactly both in ℚ and in IEEE float64, and the float operations used
(subtraction, absolute value, max, sum, doubling) are exact on these values.
Failure (a raised Python exception) is modelled as `none`.
-/

namespace TomoTsp

/-- Collect a list of optional values; `none` as soon as any element is `none`.
Models a Python computation that evaluates a list of subexpressions and raises
as soon as one of them raises. -/
def optList {α : Type} : List (Option α) → Option (List α)
  | [] => some []
  | none :: _ => none
  | some x :: os => (optList os).map (fun xs => x :: xs)

/-- Entry lookup in a row-major matrix (row `i`, column `j`); `none` out of bounds. -/
def mget {α : Type} (m : List (List α)) (i j : ℕ) : Option α :=
  (m.get? i).bind (fun row => row.get? j)

/-- Python/numpy sequence indexing with a (possibly negative) integer index: a
nonnegative index is looked up directly, a negative index `i` addresses
position `length + i`, and anything outside `[-length, length)` raises
IndexError, modelled as `none`. -/
def pyIdx {α : Type} (l : List α) (i : ℤ) : Option α :=
  if 0 ≤ i then l.get? i.toNat
  else if (l.length : ℤ) + i < 0 then none
  else l.get? ((l.length : ℤ) + i).toNat

/-- `np.max` over an axis: the maximum of a list of values; numpy raises on a
reduction over an empty axis, modelled as `none`. -/
def npMax : List ℚ → Option ℚ
  | [] => none
  | x :: xs => some (xs.foldl max x)

/-- The componentwise absolute angle differences `|aj[k] - ai[k]|` between two
settings: the (i, j) vector of `np.abs(angles - angles[:, None])` in `adj_mat`. -/
def absDiffs (ai aj : List ℚ) : List ℚ :=
  List.zipWith (fun x y => |y - x|) ai aj

/-- `adj_mat` (src/wave_plate_tsp.ipynb, cell `adj_mat`): the TSP adjacency
matrix of a list of wave-plate settings,
`adjacency_matrix = np.max(np.abs(angles - angles[:, None]), axis=2)`:
entry (i, j) is the maximum componentwise absolute difference between settings
i and j. -/
def adj_mat (angles : List (List ℚ)) : Option (List (List ℚ)) :=
  optList (angles.map (fun ai => optList (angles.map (fun aj => npMax (absDiffs ai aj)))))

/-- `ANGLES_6s`: the fixed one-qubit wave-plate angle table, rows H, V, D, A,
R, L, columns (HWP angle, QWP angle), exactly as in the executable cell of the
notebook. -/
def ANGLES_6s : List (List ℚ) :=
  [[0, 0], [45, 0], [22.5, 0], [-22.5, 0], [0, 45], [0, -45]]

/-- The one-qubit adjacency matrix `adj_mat(ANGLES_6s)` as printed in the
notebook's output cell. -/
def ADJ1 : List (List ℚ) :=
  [[0, 45, 22.5, 22.5, 45, 45],
   [45, 0, 22.5, 67.5, 45, 45],
   [22.5, 22.5, 0, 45, 45, 45],
   [22.5, 67.5, 45, 0, 45, 45],
   [45, 45, 45, 45, 0, 90],
   [45, 45, 45, 45, 90, 0]]

/-- One `adj_matrix[edge[0]][edge[1]]` lookup of `cycle_length`, with Python
index semantics in both axes. -/
def lookup2 (adj_matrix : List (List ℚ)) (e : ℤ × ℤ) : Option ℚ :=
  (pyIdx adj_matrix e.1).bind (fun row => pyIdx row e.2)

/-- The edge list built by `cycle_length`: consecutive pairs
`[path[n], path[n+1]]` followed by the closing edge `[path[-1], path[0]]`;
on an empty path, `path[-1]` raises IndexError (`none`). -/
def cycle_edges : List ℤ → Option (List (ℤ × ℤ))
  | [] => none
  | p :: rest => some (((p :: rest).zip rest) ++ [((rest.getLast?).getD p, p)])

/-- `cycle_length` (src/wave_plate_tsp.ipynb): the total cost of a cyclic tour,
the sum of the adjacency-matrix entries along the edges of the path plus the
closing edge. -/
def cycle_length (adj_matrix : List (List ℚ)) (path : List ℤ) : Option ℚ :=
  (cycle_edges path).bind (fun edges =>
    (optList (edges.map (lookup2 adj_matrix))).map (fun costs => costs.sum))

/-- `reduction = conv_cycle - tsp_cycle` (src/wave_plate_tsp.ipynb). -/
def reduction (conv_cycle tsp_cycle : ℚ) : ℚ := conv_cycle - tsp_cycle

/-- The value of one adjacency-matrix entry for two settings (the `npMax` of
the absolute component differences, defaulted on the impossible empty case). -/
def entryD (ai aj : List ℚ) : ℚ := (npMax (absDiffs ai aj)).getD 0

/-- Total matrix entry lookup, defaulting out-of-range access to 0. -/
def entD (M : List (List ℚ)) (i j : ℕ) : ℚ := (mget M i j).getD 0

/-- The (nonnegative) matrix index denoted by position `k` of a tour. -/
def tourIdx (t : List ℤ) (k : ℕ) : ℕ := (t.getD k 0).toNat

/-- `itertools.product(base, repeat=m)`: all `m`-tuples of elements of `base`,
first factor outermost (the rightmost factor varies fastest). -/
def cartesianPower {α : Type} (base : List α) : ℕ → List (List α)
  | 0 => [[]]
  | m + 1 => (base.map (fun b => (cartesianPower base m).map (fun t => b :: t))).flatten

/-- `nqubit_angles` (src/wave_plate_tsp.ipynb): the n-qubit angle table,
`np.vstack(map(np.hstack, product(one_qubit_angles, repeat=n)))`.
Failure cases of the source, all modelled as `none`: `product` raises
ValueError on a negative `repeat`; `np.hstack` raises ValueError on an empty
tuple (which occurs exactly when n = 0); `np.vstack` raises ValueError when
given no arrays at all (empty base with n ≥ 1). -/
def nqubit_angles (one_qubit_angles : List (List ℚ)) (n : ℤ) : Option (List (List ℚ)) :=
  if n < 0 then none
  else
    let cartesian := cartesianPower one_qubit_angles n.toNat
    if cartesian.any (fun t => t.isEmpty) then none
    else if cartesian.isEmpty then none
    else some (cartesian.map (fun t => t.flatten))

/-- The `m` base-`b` digits of `idx`, most significant digit first. -/
def baseDigits (b : ℕ) : ℕ → ℕ → List ℕ
  | 0, _ => []
  | m + 1, idx => idx / b ^ m :: baseDigits b m (idx % b ^ m)

/-- C-style `%d` conversion of a numeric value (used by
`np.savetxt(..., fmt="%d")`): truncation toward zero. -/
def pyTrunc (q : ℚ) : ℤ := if 0 ≤ q then ⌊q⌋ else ⌈q⌉

/-- Result of a `save_tsp` call: the integers written in the
EDGE_WEIGHT_SECTION of the .tsp file (row by row), and the state of the
caller's `adjacency_matrix` array after the call (the source performs the
in-place update `adjacency_matrix *= 2` on it). The header and EOF lines are
fixed text not involved in any claim and are elided. -/
structure SaveTspResult where
  written : List (List ℤ)
  matrixAfter : List (List ℚ)

/-- `save_tsp` (src/wave_plate_tsp.ipynb): doubles the adjacency matrix in
place (`adjacency_matrix *= 2`) and writes it with `np.savetxt(..., fmt="%d")`,
which renders each (float) entry with C `%d`, i.e. truncated toward zero. -/
def save_tsp (adjacency_matrix : List (List ℚ)) : SaveTspResult :=
  let doubled := adjacency_matrix.map (fun row => row.map (fun x => x * 2))
  { written := doubled.map (fun row => row.map pyTrunc)
    matrixAfter := doubled }

/-- `x.rstrip(" \n")`: drop trailing spaces and newlines. Lines are modelled
without their terminating newline, which `rstrip(" \n")` removes anyway. -/
def rstripSp (l : List Char) : List Char :=
  ((l.reverse).dropWhile (fun c => c == ' ' || c == '\n')).reverse

/-- Python `str.split(" ")`: split at every single space; consecutive or
leading spaces produce empty tokens, and the empty string yields one empty
token. -/
def splitSp : List Char → List (List Char)
  | [] => [[]]
  | c :: rest =>
    if c = ' ' then [] :: splitSp rest
    else
      match splitSp rest with
      | [] => [[c]]
      | t :: ts => (c :: t) :: ts

/-- Numeric value of a list of decimal digit characters. -/
def digitsVal (ds : List Char) : ℕ :=
  ds.foldl (fun a c => 10 * a + (c.toNat - 48)) 0

/-- Python `int()` on a token of a .sol file (a string containing no space):
an optional sign followed by at least one decimal digit; anything else raises
ValueError (`none`). -/
def pyInt (s : List Char) : Option ℤ :=
  match s with
  | '-' :: ds =>
    if ds ≠ [] ∧ ds.all (fun c => c.isDigit) then some (-(digitsVal ds : ℤ)) else none
  | '+' :: ds =>
    if ds ≠ [] ∧ ds.all (fun c => c.isDigit) then some ((digitsVal ds : ℤ)) else none
  | ds =>
    if ds ≠ [] ∧ ds.all (fun c => c.isDigit) then some ((digitsVal ds : ℤ)) else none

/-- The token list `get_projs` feeds to `int`: drop the first line, rstrip each
remaining line, join with single spaces, split on single spaces. -/
def solTokens (fileLines : List (List Char)) : List (List Char) :=
  splitSp (List.intercalate [' '] ((fileLines.drop 1).map rstripSp))

/-- `get_projs` (src/wave_plate_tsp.ipynb): parse a .sol file (given as its
list of lines) into the list of tour indices. -/
def get_projs (fileLines : List (List Char)) : Option (List ℤ) :=
  optList ((solTokens fileLines).map pyInt)

attribute [local semireducible] Rat.ofScientific Rat.mul Rat.inv Rat.add Rat.sub

/-! ### Helper lemmas: `optList` -/

theorem optList_map_some {α β : Type} (f : α → Option β) (g : α → β) :
    ∀ l : List α, (∀ a ∈ l, f a = some (g a)) → optList (l.map f) = some (l.map g)
  | [], _ => rfl
  | a :: l, h => by
    have ha := h a (List.mem_cons_self a l)
    have hl := optList_map_some f g l (fun b hb => h b (List.mem_cons_of_mem a hb))
    simp [optList, ha, hl]

theorem optList_map_none {α β : Type} (f : α → Option β) (l : List α) (a : α)
    (ha : a ∈ l) (hfa : f a = none) : optList (l.map f) = none := by
  induction l with
  | nil => cases ha
  | cons b l ih =>
    rcases List.mem_cons.mp ha with rfl | ha'
    · simp [optList, hfa]
    · have h2 := ih ha'
      cases hfb : f b <;> simp [optList, h2, hfb]

theorem optList_mem {α : Type} :
    ∀ (l : List (Option α)) (out : List α), optList l = some out → ∀ x ∈ out, some x ∈ l := by
  intro l
  induction l with
  | nil =>
    intro out h x hx
    simp [optList] at h
    subst h
    cases hx
  | cons o os ih =>
    intro out h x hx
    cases o with
    | none => simp [optList] at h
    | some y =>
      cases hos : optList os with
      | none => rw [optList, hos] at h; cases h
      | some ys =>
        rw [optList, hos] at h
        simp only [Option.map_some'] at h
        rcases Option.some.inj h with rfl
        rcases List.mem_cons.mp hx with rfl | hx'
        · exact List.mem_cons_self _ _
        · exact List.mem_cons_of_mem _ (ih ys hos x hx')

/-! ### Helper lemmas: `npMax` and `List.foldl max` -/

theorem le_foldl_max (xs : List ℚ) : ∀ x : ℚ, x ≤ xs.foldl max x := by
  induction xs with
  | nil => intro x; exact le_refl x
  | cons y ys ih =>
    intro x
    calc x ≤ max x y := le_max_left x y
    _ ≤ ys.foldl max (max x y) := ih (max x y)

theorem foldl_max_of_mem (xs : List ℚ) : ∀ (x a : ℚ), a ∈ xs → a ≤ xs.foldl max x := by
  induction xs with
  | nil => intro x a ha; cases ha
  | cons y ys ih =>
    intro x a ha
    rcases List.mem_cons.mp ha with rfl | ha'
    · calc a ≤ max x a := le_max_right x a
      _ ≤ ys.foldl max (max x a) := le_foldl_max ys (max x a)
    · exact ih (max x y) a ha'

theorem foldl_max_mem (xs : List ℚ) : ∀ x : ℚ, xs.foldl max x = x ∨ xs.foldl max x ∈ xs := by
  induction xs with
  | nil => intro x; left; rfl
  | cons y ys ih =>
    intro x
    rcases ih (max x y) with h | h
    · rcases max_choice x y with hxy | hxy
      · left
        show ys.foldl max (max x y) = x
        rw [h, hxy]
      · right
        show ys.foldl max (max x y) ∈ y :: ys
        rw [h, hxy]
        exact List.mem_cons_self y ys
    · right
      exact List.mem_cons_of_mem y h

theorem npMax_spec (l : List ℚ) (m : ℚ) (h : npMax l = some m) :
    m ∈ l ∧ ∀ a ∈ l, a ≤ m := by
  cases l with
  | nil => simp [npMax] at h
  | cons x xs =>
    simp only [npMax] at h
    rcases Option.some.inj h with rfl
    constructor
    · rcases foldl_max_mem xs x with h2 | h2
      · rw [h2]; exact List.mem_cons_self x xs
      · exact List.mem_cons_of_mem x h2
    · intro a ha
      rcases List.mem_cons.mp ha with rfl | ha'
      · exact le_foldl_max xs a
      · exact foldl_max_of_mem xs x a ha'

theorem npMax_isSome (l : List ℚ) (h : l ≠ []) : npMax l = some ((npMax l).getD 0) := by
  cases l with
  | nil => exact absurd rfl h
  | cons x xs => rfl

/-! ### Helper lemmas: `pyIdx` -/

theorem pyIdx_nonneg {α : Type} (l : List α) (i : ℤ) (h : 0 ≤ i) :
    pyIdx l i = l.get? i.toNat := by
  simp [pyIdx, h]

theorem pyIdx_none {α : Type} (l : List α) (i : ℤ)
    (h : (l.length : ℤ) ≤ i ∨ i < -(l.length : ℤ)) : pyIdx l i = none := by
  rcases h with h | h
  · have h0 : 0 ≤ i := le_trans (Int.ofNat_nonneg _) h
    rw [pyIdx_nonneg l i h0, List.get?_eq_none]
    omega
  · have h0 : ¬ (0 ≤ i) := by omega
    have h1 : (l.length : ℤ) + i < 0 := by omega
    simp only [pyIdx, if_neg h0, if_pos h1]

/-! ### Helper lemmas: last elements and cyclic edge lists -/

theorem getLast?_cons_eq : ∀ (rest : List ℤ) (p : ℤ),
    (p :: rest).getLast? = some ((rest.getLast?).getD p)
  | [], _ => rfl
  | b :: bs, p => by
    rw [List.getLast?_cons_cons, getLast?_cons_eq bs b]
    rfl

theorem getLastD_mem (p : ℤ) (rest : List ℤ) : ((rest.getLast?).getD p) ∈ (p :: rest) := by
  have h := getLast?_cons_eq rest p
  have h2 : ((rest.getLast?).getD p) ∈ (p :: rest).getLast? := by
    rw [h]; rfl
  rcases List.mem_getLast?_eq_getLast h2 with ⟨hne, heq⟩
  rw [heq]
  exact List.getLast_mem hne

theorem getLastD_eq_getD : ∀ (rest : List ℤ) (p : ℤ),
    (rest.getLast?).getD p = (p :: rest).getD ((p :: rest).length - 1) 0
  | [], _ => rfl
  | b :: bs, p => by
    rw [getLast?_cons_eq bs b]
    show (bs.getLast?).getD b = _
    rw [getLastD_eq_getD bs b]
    have hlen : (p :: b :: bs).length - 1 = ((b :: bs).length - 1) + 1 := by
      simp
    rw [hlen, List.getD_cons_succ]

theorem mem_zip_or_last : ∀ (t : List ℤ) (i : ℤ), i ∈ t →
    (∃ j, (i, j) ∈ t.zip t.tail) ∨ t.getLast? = some i := by
  intro t
  induction t with
  | nil => intro i hi; cases hi
  | cons a rest ih =>
    intro i hi
    cases rest with
    | nil =>
      rcases List.mem_cons.mp hi with rfl | h
      · right; rfl
      · cases h
    | cons b rest' =>
      rcases List.mem_cons.mp hi with rfl | h
      · left
        refine ⟨b, ?_⟩
        rw [List.tail_cons, List.zip_cons_cons]
        exact List.mem_cons_self _ _
      · rcases ih i h with ⟨j, hj⟩ | hl
        · left
          refine ⟨j, ?_⟩
          rw [List.tail_cons, List.zip_cons_cons]
          rw [List.tail_cons] at hj
          exact List.mem_cons_of_mem _ hj
        · right
          rw [List.getLast?_cons_cons]
          exact hl

/-! ### Helper lemmas: `absDiffs`, `entryD` and `adj_mat` -/

theorem absDiffs_length (ai aj : List ℚ) :
    (absDiffs ai aj).length = min ai.length aj.length := by
  simp [absDiffs]

theorem absDiffs_comm : ∀ ai aj : List ℚ, absDiffs ai aj = absDiffs aj ai
  | [], [] => rfl
  | [], _ :: _ => rfl
  | _ :: _, [] => rfl
  | x :: ai, y :: aj => by
    show |y - x| :: absDiffs ai aj = |x - y| :: absDiffs aj ai
    rw [abs_sub_comm, absDiffs_comm ai aj]

theorem absDiffs_self : ∀ s : List ℚ, absDiffs s s = s.map (fun _ => (0 : ℚ))
  | [] => rfl
  | x :: s => by
    show |x - x| :: absDiffs s s = 0 :: _
    rw [sub_self, abs_zero, absDiffs_self s]

theorem absDiffs_ne_nil (ai aj : List ℚ) (C : ℕ) (hC : 0 < C)
    (h1 : ai.length = C) (h2 : aj.length = C) : absDiffs ai aj ≠ [] := by
  intro h
  have hlen := congrArg List.length h
  rw [absDiffs_length, h1, h2, min_self] at hlen
  simp at hlen
  omega

theorem entryD_self (s : List ℚ) (hs : s ≠ []) : entryD s s = 0 := by
  show (npMax (absDiffs s s)).getD 0 = 0
  rw [absDiffs_self]
  have hne : s.map (fun _ => (0 : ℚ)) ≠ [] := by
    intro h
    simp only [List.map_eq_nil_iff] at h
    exact hs h
  have h1 := npMax_isSome _ hne
  have h3 := (npMax_spec _ _ h1).1
  rcases List.mem_map.mp h3 with ⟨a, -, hz⟩
  exact hz.symm

theorem adj_mat_eq (angles : List (List ℚ)) (C : ℕ) (hC : 0 < C)
    (harity : ∀ s ∈ angles, s.length = C) :
    adj_mat angles = some (angles.map (fun ai => angles.map (fun aj => entryD ai aj))) := by
  unfold adj_mat
  apply optList_map_some
  intro ai hai
  apply optList_map_some
  intro aj haj
  exact npMax_isSome _ (absDiffs_ne_nil ai aj C hC (harity ai hai) (harity aj haj))

theorem mget_entry_map (angles : List (List ℚ)) (i j : ℕ) :
    mget (angles.map (fun ai => angles.map (fun aj => entryD ai aj))) i j =
      (angles.get? i).bind (fun si => (angles.get? j).map (fun sj => entryD si sj)) := by
  rw [mget, List.get?_map]
  cases angles.get? i with
  | none => rfl
  | some si =>
    show (angles.map (fun aj => entryD si aj)).get? j = _
    rw [List.get?_map]
    rfl

/-- C4: `adj_mat` on settings of a common positive arity C succeeds and
produces a square matrix whose (i, j) entry is the maximum over the component
indices k of |settings[i][k] - settings[j][k]|; consequently the matrix is
exactly symmetric and has an exactly zero diagonal. (A positive arity is
required: numpy rejects a max-reduction over an empty axis.) -/
theorem adj_mat_spec (angles : List (List ℚ)) (C : ℕ) (hC : 0 < C)
    (harity : ∀ s ∈ angles, s.length = C) :
    adj_mat angles ≠ none ∧
    ∀ M, adj_mat angles = some M →
      (M.length = angles.length ∧ ∀ r ∈ M, r.length = angles.length) ∧
      (∀ i j si sj, angles.get? i = some si → angles.get? j = some sj →
        ∃ c, mget M i j = some c ∧
          (∀ k x y, si.get? k = some x → sj.get? k = some y → |x - y| ≤ c) ∧
          (∃ k x y, si.get? k = some x ∧ sj.get? k = some y ∧ c = |x - y|)) ∧
      (∀ i j, mget M i j = mget M j i) ∧
      (∀ i si, angles.get? i = some si → mget M i i = some 0) := by
  have hEq := adj_mat_eq angles C hC harity
  refine ⟨by rw [hEq]; simp, ?_⟩
  intro M hM
  rw [hEq] at hM
  rcases Option.some.inj hM with rfl
  refine ⟨⟨by simp, ?_⟩, ?_, ?_, ?_⟩
  · intro r hr
    rcases List.mem_map.mp hr with ⟨si, -, rfl⟩
    simp
  · intro i j si sj hi hj
    have hsi : si ∈ angles := List.get?_mem hi
    have hsj : sj ∈ angles := List.get?_mem hj
    have hne := absDiffs_ne_nil si sj C hC (harity si hsi) (harity sj hsj)
    have hsome := npMax_isSome _ hne
    have hspec := npMax_spec _ _ hsome
    refine ⟨entryD si sj, ?_, ?_, ?_⟩
    · rw [mget_entry_map, hi, hj]
      rfl
    · intro k x y hx hy
      have hmem : |y - x| ∈ absDiffs si sj := by
        have hk : (absDiffs si sj).get? k = some (|y - x|) :=
          (List.get?_zipWith_eq_some _ _ _ _ _).mpr ⟨x, y, hx, hy, rfl⟩
        exact List.get?_mem hk
      have hle := hspec.2 _ hmem
      rwa [abs_sub_comm] at hle
    · rcases List.get?_of_mem hspec.1 with ⟨k, hk⟩
      rcases (List.get?_zipWith_eq_some _ _ _ _ _).mp hk with ⟨x, y, hx, hy, hxy⟩
      refine ⟨k, x, y, hx, hy, ?_⟩
      show (npMax (absDiffs si sj)).getD 0 = |x - y|
      rw [← hxy, abs_sub_comm]
  · intro i j
    rw [mget_entry_map, mget_entry_map]
    cases hi : angles.get? i with
    | none =>
      cases hj : angles.get? j with
      | none => rfl
      | some sj => rfl
    | some si =>
      cases hj : angles.get? j with
      | none => rfl
      | some sj =>
        show some (entryD si sj) = some (entryD sj si)
        simp only [entryD]
        rw [absDiffs_comm si sj]
  · intro i si hi
    rw [mget_entry_map, hi]
    show some (entryD si si) = some 0
    have hsi : si ∈ angles := List.get?_mem hi
    have hne : si ≠ [] := by
      intro h
      have := harity si hsi
      rw [h] at this
      simp at this
      omega
    rw [entryD_self si hne]

/-- Witness for C4: the theorem applied to the notebook's one-qubit angle
table and its printed adjacency matrix. -/
theorem adj_mat_spec_witness : adj_mat ANGLES_6s ≠ none ∧ mget ADJ1 2 2 = some 0 := by
  have h := adj_mat_spec ANGLES_6s 2 (by decide) (by decide)
  exact ⟨h.1, (h.2 ADJ1 (by decide)).2.2.2 2 [22.5, 0] (by decide)⟩

/-! ### `cycle_length` failure analysis -/

theorem cycle_edges_fst (t : List ℤ) (i : ℤ) (hit : i ∈ t) :
    ∃ es, cycle_edges t = some es ∧ ∃ j, (i, j) ∈ es := by
  cases t with
  | nil => cases hit
  | cons p rest =>
    refine ⟨_, rfl, ?_⟩
    rcases mem_zip_or_last (p :: rest) i hit with ⟨j, hj⟩ | hlast
    · exact ⟨j, List.mem_append_left _ hj⟩
    · refine ⟨p, List.mem_append_right _ ?_⟩
      have h2 : (rest.getLast?).getD p = i :=
        Option.some.inj ((getLast?_cons_eq rest p).symm.trans hlast)
      rw [h2]
      exact List.mem_singleton.mpr rfl

/-- C2 (amended): `cycle_length` fails on the empty tour (`path[-1]` raises
IndexError), and fails with an IndexError whenever the tour contains an index
that is ≥ N or < -N; indices in [-N, -1] do NOT fail — Python/numpy indexing
interprets them as wrapping from the end (see the counterexample). -/
theorem cycle_length_failure (M : List (List ℚ)) (t : List ℤ) :
    (t = [] → cycle_length M t = none) ∧
    (∀ i ∈ t, ((M.length : ℤ) ≤ i ∨ i < -(M.length : ℤ)) → cycle_length M t = none) := by
  constructor
  · rintro rfl
    rfl
  · intro i hit hoob
    rcases cycle_edges_fst t i hit with ⟨es, hes, j, hij⟩
    have hnone : lookup2 M (i, j) = none := by
      show (pyIdx M i).bind _ = none
      rw [pyIdx_none M i hoob]
      rfl
    unfold cycle_length
    rw [hes]
    show (optList (es.map (lookup2 M))).map _ = none
    rw [optList_map_none (lookup2 M) es (i, j) hij hnone]
    rfl

/-- Counterexample for C2 as stated: the tour [0, -1] contains a negative
index, yet `cycle_length` succeeds on the one-qubit matrix — numpy interprets
-1 as the last row/column (here row 5), giving 45 + 45 = 90. -/
theorem cycle_length_neg_index_cex : cycle_length ADJ1 [0, -1] = some 90 := by decide

/-- Witness for C2's amended theorem: the empty tour and an index ≥ N fail on
the one-qubit matrix. -/
theorem cycle_length_failure_witness :
    cycle_length ADJ1 [] = none ∧ cycle_length ADJ1 [6] = none :=
  ⟨(cycle_length_failure ADJ1 []).1 rfl,
   (cycle_length_failure ADJ1 [6]).2 6 (List.mem_singleton.mpr rfl) (Or.inl (by decide))⟩

/-! ### `cycle_length` evaluation on valid tours -/

theorem lookup2_valid (M : List (List ℚ)) (N : ℕ) (hM : M.length = N)
    (hrows : ∀ r ∈ M, r.length = N) (i j : ℤ)
    (hi : 0 ≤ i ∧ i < (N : ℤ)) (hj : 0 ≤ j ∧ j < (N : ℤ)) :
    lookup2 M (i, j) = some (entD M i.toNat j.toNat) := by
  obtain ⟨hi0, hiN⟩ := hi
  obtain ⟨hj0, hjN⟩ := hj
  show (pyIdx M i).bind (fun row => pyIdx row j) = _
  rw [pyIdx_nonneg M i hi0]
  cases hget : M.get? i.toNat with
  | none =>
    rw [List.get?_eq_none] at hget
    omega
  | some r =>
    have hrl := hrows r (List.get?_mem hget)
    show pyIdx r j = _
    rw [pyIdx_nonneg r j hj0]
    cases hrow : r.get? j.toNat with
    | none =>
      rw [List.get?_eq_none] at hrow
      omega
    | some x =>
      simp only [entD, mget, hget, Option.some_bind', hrow, Option.getD_some]

theorem zip_tail_map_sum (f : ℤ × ℤ → ℚ) :
    ∀ t : List ℤ, ((t.zip t.tail).map f).sum =
      Finset.sum (Finset.range (t.length - 1)) (fun k => f (t.getD k 0, t.getD (k + 1) 0))
  | [] => by simp
  | [a] => by simp
  | a :: b :: rest => by
    have ih := zip_tail_map_sum f (b :: rest)
    simp only [List.tail_cons] at ih
    have hlen : (a :: b :: rest).length - 1 = ((b :: rest).length - 1) + 1 := by simp
    rw [hlen, Finset.sum_range_succ']
    show (f (a, b) :: ((b :: rest).zip rest).map f).sum = _
    rw [List.sum_cons, ih]
    simp only [List.getD_cons_succ, List.getD_cons_zero]
    exact add_comm _ _

/-- C5: for every non-empty tour of valid indices into a square matrix,
`cycle_length` returns the sum of the costs of consecutive transitions plus
the closing edge from the last tour element back to the first; on the
notebook's one-qubit matrix, the optimal tour [0,5,3,4,1,2] costs 225, the
identity tour [0,1,2,3,4,5] costs 292.5, and the reduction is 67.5. -/
theorem cycle_length_spec :
    (∀ (M : List (List ℚ)) (N : ℕ) (t : List ℤ),
      M.length = N → (∀ r ∈ M, r.length = N) → t ≠ [] →
      (∀ i ∈ t, 0 ≤ i ∧ i < (N : ℤ)) →
      cycle_length M t = some
        (Finset.sum (Finset.range (t.length - 1))
            (fun k => entD M (tourIdx t k) (tourIdx t (k + 1))) +
          entD M (tourIdx t (t.length - 1)) (tourIdx t 0))) ∧
    adj_mat ANGLES_6s = some ADJ1 ∧
    cycle_length ADJ1 [0, 5, 3, 4, 1, 2] = some 225 ∧
    cycle_length ADJ1 [0, 1, 2, 3, 4, 5] = some (585 / 2) ∧
    reduction (585 / 2) 225 = 135 / 2 := by
  refine ⟨?_, by decide, by decide, by decide, by decide⟩
  intro M N t hM hrows ht hvalid
  cases t with
  | nil => exact absurd rfl ht
  | cons p rest =>
    have hedge : ∀ e ∈ ((p :: rest).zip rest) ++ [((rest.getLast?).getD p, p)],
        lookup2 M e = some (entD M e.1.toNat e.2.toNat) := by
      intro e he
      rcases List.mem_append.mp he with hz | hc
      · have h12 := List.of_mem_zip hz
        exact lookup2_valid M N hM hrows e.1 e.2 (hvalid e.1 h12.1)
          (hvalid e.2 (List.mem_cons_of_mem p h12.2))
      · rcases List.mem_singleton.mp hc with rfl
        exact lookup2_valid M N hM hrows _ _ (hvalid _ (getLastD_mem p rest))
          (hvalid p (List.mem_cons_self p rest))
    have hopt := optList_map_some (lookup2 M)
      (fun e => entD M e.1.toNat e.2.toNat) _ hedge
    have hsum := zip_tail_map_sum (fun e => entD M e.1.toNat e.2.toNat) (p :: rest)
    simp only [List.tail_cons] at hsum
    unfold cycle_length
    show (optList (((((p :: rest).zip rest) ++ [((rest.getLast?).getD p, p)]).map
        (lookup2 M)))).map (fun costs => costs.sum) = _
    rw [hopt]
    show some (((((p :: rest).zip rest) ++ [((rest.getLast?).getD p, p)]).map
        (fun e => entD M e.1.toNat e.2.toNat)).sum) = _
    rw [List.map_append, List.sum_append, hsum]
    simp only [List.map_cons, List.map_nil, List.sum_cons, List.sum_nil, add_zero]
    rw [getLastD_eq_getD rest p]
    rfl

/-- Witness for C5's general clause: a 2×2 matrix and the tour [0, 1]. -/
theorem cycle_length_spec_witness :
    cycle_length [[(0 : ℚ), 1], [1, 0]] [0, 1] = some 2 := by
  have h := cycle_length_spec.1 [[(0 : ℚ), 1], [1, 0]] 2 [0, 1]
    (by decide) (by decide) (by decide) (by decide)
  exact h.trans (by decide)

/-! ### `cartesianPower` and `nqubit_angles` -/

theorem sum_map_const_on {α : Type} (t : List α) (f : α → ℕ) (c : ℕ)
    (h : ∀ x ∈ t, f x = c) : (t.map f).sum = t.length * c := by
  induction t with
  | nil => simp
  | cons a t ih =>
    rw [List.map_cons, List.sum_cons, h a (List.mem_cons_self a t),
      ih (fun x hx => h x (List.mem_cons_of_mem a hx)), List.length_cons]
    ring

theorem cartesianPower_length {α : Type} (base : List α) :
    ∀ m : ℕ, (cartesianPower base m).length = base.length ^ m
  | 0 => rfl
  | m + 1 => by
    have he : ∀ l ∈ base.map (fun b => (cartesianPower base m).map (fun t => b :: t)),
        l.length = base.length ^ m := by
      intro l hl
      rcases List.mem_map.mp hl with ⟨b, -, rfl⟩
      rw [List.length_map, cartesianPower_length base m]
    show ((base.map (fun b => (cartesianPower base m).map (fun t => b :: t))).flatten).length = _
    rw [List.length_flatten, sum_map_const_on _ List.length _ he, List.length_map, pow_succ]
    ring

theorem cartesianPower_mem {α : Type} (base : List α) :
    ∀ (m : ℕ) (t : List α), t ∈ cartesianPower base m → t.length = m ∧ ∀ s ∈ t, s ∈ base
  | 0, t, ht => by
    simp only [cartesianPower, List.mem_singleton] at ht
    subst ht
    exact ⟨rfl, by intro s hs; cases hs⟩
  | m + 1, t, ht => by
    simp only [cartesianPower, List.mem_flatten, List.mem_map] at ht
    rcases ht with ⟨l, ⟨b, hb, rfl⟩, htl⟩
    rcases List.mem_map.mp htl with ⟨t', ht', rfl⟩
    rcases cartesianPower_mem base m t' ht' with ⟨hlen, hmem⟩
    refine ⟨by simp [hlen], ?_⟩
    intro s hs
    rcases List.mem_cons.mp hs with rfl | hs'
    · exact hb
    · exact hmem s hs'

theorem flatten_get?_uniform {α : Type} (K : ℕ) (hK : 0 < K) :
    ∀ L : List (List α), (∀ l ∈ L, l.length = K) →
      ∀ idx : ℕ, L.flatten.get? idx = (L.get? (idx / K)).bind (fun l => l.get? (idx % K))
  | [], _, idx => by simp
  | l :: L', h, idx => by
    have hl : l.length = K := h l (List.mem_cons_self _ _)
    have hrec := flatten_get?_uniform K hK L' (fun x hx => h x (List.mem_cons_of_mem _ hx))
    show (l ++ L'.flatten).get? idx = _
    by_cases hidx : idx < K
    · rw [List.get?_append (by omega), Nat.div_eq_of_lt hidx, Nat.mod_eq_of_lt hidx]
      rfl
    · push_neg at hidx
      rw [List.get?_append_right (by omega), hl, hrec (idx - K),
        Nat.div_eq_sub_div hK hidx, Nat.mod_eq_sub_mod hidx]
      rfl

theorem baseDigits_lt (B : ℕ) (hB : 0 < B) :
    ∀ (m idx : ℕ), idx < B ^ m → ∀ d ∈ baseDigits B m idx, d < B
  | 0, _, _ => by
    intro d hd
    cases hd
  | m + 1, idx, h => by
    intro d hd
    simp only [baseDigits] at hd
    rcases List.mem_cons.mp hd with rfl | hd'
    · have hBm : 0 < B ^ m := pow_pos hB m
      rw [Nat.div_lt_iff_lt_mul hBm]
      calc idx < B ^ (m + 1) := h
      _ = B * B ^ m := by rw [pow_succ]; ring
    · exact baseDigits_lt B hB m (idx % B ^ m) (Nat.mod_lt _ (pow_pos hB m)) d hd'

theorem cartesianPower_get? {α : Type} (base : List α) (dflt : α) :
    ∀ (m idx : ℕ), idx < base.length ^ m →
      (cartesianPower base m).get? idx =
        some ((baseDigits base.length m idx).map (fun d => base.getD d dflt))
  | 0, idx, h => by
    have h0 : idx = 0 := by simpa using h
    subst h0
    rfl
  | m + 1, idx, h => by
    have hB : 0 < base.length := by
      rcases Nat.eq_zero_or_pos base.length with h0 | h0
      · rw [h0] at h
        simp [Nat.zero_pow] at h
      · exact h0
    have hBm : 0 < base.length ^ m := pow_pos hB m
    have hq : idx / base.length ^ m < base.length := by
      rw [Nat.div_lt_iff_lt_mul hBm]
      calc idx < base.length ^ (m + 1) := h
      _ = base.length * base.length ^ m := by rw [pow_succ]; ring
    have hr : idx % base.length ^ m < base.length ^ m := Nat.mod_lt _ hBm
    have huni : ∀ l ∈ base.map (fun b => (cartesianPower base m).map (fun t => b :: t)),
        l.length = base.length ^ m := by
      intro l hl
      rcases List.mem_map.mp hl with ⟨b, -, rfl⟩
      rw [List.length_map, cartesianPower_length base m]
    show ((base.map (fun b => (cartesianPower base m).map (fun t => b :: t))).flatten).get? idx = _
    rw [flatten_get?_uniform (base.length ^ m) hBm _ huni idx, List.get?_map]
    obtain ⟨b, hb⟩ : ∃ b, base.get? (idx / base.length ^ m) = some b := by
      cases hh : base.get? (idx / base.length ^ m) with
      | none =>
        rw [List.get?_eq_none] at hh
        omega
      | some b => exact ⟨b, rfl⟩
    rw [hb]
    show ((cartesianPower base m).map (fun t => b :: t)).get? (idx % base.length ^ m) = _
    rw [List.get?_map, cartesianPower_get? base dflt m (idx % base.length ^ m) hr]
    have hbd : base.getD (idx / base.length ^ m) dflt = b := by
      rw [List.getD_eq_get?, hb]
      rfl
    show some (b :: (baseDigits base.length m (idx % base.length ^ m)).map
        (fun d => base.getD d dflt)) =
      some ((idx / base.length ^ m :: baseDigits base.length m (idx % base.length ^ m)).map
        (fun d => base.getD d dflt))
    rw [List.map_cons, hbd]

theorem nqubit_angles_eq (base : List (List ℚ)) (n : ℤ) (hn : 1 ≤ n) (rows : List (List ℚ))
    (h : nqubit_angles base n = some rows) :
    rows = (cartesianPower base n.toNat).map (fun t => t.flatten) := by
  simp only [nqubit_angles] at h
  rw [if_neg (by omega : ¬ n < 0)] at h
  split_ifs at h
  exact (Option.some.inj h).symm

/-- C7: `nqubit_angles` fails (ValueError) for every qubit count < 1: a
negative count is rejected by `itertools.product`, and for a count of 0 the
lone empty tuple makes `np.hstack` raise. -/
theorem nqubit_angles_invalid (base : List (List ℚ)) (n : ℤ) (hn : n < 1) :
    nqubit_angles base n = none := by
  by_cases h0 : n < 0
  · simp only [nqubit_angles]
    rw [if_pos h0]
  · have h1 : n = 0 := by omega
    subst h1
    rfl

/-- Witness for C7: qubit counts 0 and -3 both fail on the base table. -/
theorem nqubit_angles_invalid_witness :
    nqubit_angles ANGLES_6s 0 = none ∧ nqubit_angles ANGLES_6s (-3) = none :=
  ⟨nqubit_angles_invalid ANGLES_6s 0 (by decide),
   nqubit_angles_invalid ANGLES_6s (-3) (by decide)⟩

/-- C6: for every qubit count n ≥ 1, `nqubit_angles ANGLES_6s n` succeeds and
returns 6^n settings of 2n components each, the element at index idx being
the concatenation of the base settings selected by the n base-6 digits of
idx, most significant digit (= qubit 1) first, so the rightmost qubit's index
varies fastest. -/
theorem nqubit_angles_spec (n : ℤ) (hn : 1 ≤ n) :
    nqubit_angles ANGLES_6s n ≠ none ∧
    ∀ rows, nqubit_angles ANGLES_6s n = some rows →
      rows.length = 6 ^ n.toNat ∧
      (∀ r ∈ rows, r.length = 2 * n.toNat) ∧
      ∀ idx : ℕ, idx < 6 ^ n.toNat →
        (∀ d ∈ baseDigits 6 n.toNat idx, d < 6) ∧
        rows.get? idx =
          some (((baseDigits 6 n.toNat idx).map (fun d => ANGLES_6s.getD d [])).flatten) := by
  constructor
  · intro hnone
    simp only [nqubit_angles] at hnone
    rw [if_neg (by omega : ¬ n < 0)] at hnone
    split_ifs at hnone with h1 h2
    · rw [List.any_eq_true] at h1
      rcases h1 with ⟨t, ht, hemp⟩
      have hlt := (cartesianPower_mem ANGLES_6s n.toNat t ht).1
      rw [List.isEmpty_iff] at hemp
      rw [hemp] at hlt
      simp at hlt
      omega
    · rw [List.isEmpty_iff] at h2
      have hl := cartesianPower_length ANGLES_6s n.toNat
      rw [h2] at hl
      rw [show ANGLES_6s.length = 6 from rfl] at hl
      have hp : 0 < (6 : ℕ) ^ n.toNat := pow_pos (by omega) _
      simp at hl
      omega
  · intro rows hrows
    have hEq := nqubit_angles_eq ANGLES_6s n hn rows hrows
    subst hEq
    refine ⟨?_, ?_, ?_⟩
    · rw [List.length_map, cartesianPower_length]
      rfl
    · intro r hr
      rcases List.mem_map.mp hr with ⟨t, ht, rfl⟩
      rcases cartesianPower_mem ANGLES_6s n.toNat t ht with ⟨hlen, hmem⟩
      rw [List.length_flatten,
        sum_map_const_on t List.length 2
          (fun s hs => (by decide : ∀ s ∈ ANGLES_6s, s.length = 2) s (hmem s hs)),
        hlen]
      ring
    · intro idx hidx
      have hidx6 : idx < ANGLES_6s.length ^ n.toNat := hidx
      refine ⟨fun d hd => baseDigits_lt 6 (by omega) n.toNat idx hidx d hd, ?_⟩
      rw [List.get?_map, cartesianPower_get? ANGLES_6s [] n.toNat idx hidx6]
      rfl

/-- Witness for C6: at n = 1 the expansion is the base table itself, and its
element 3 (digit sequence [3]) is the A projection's setting. -/
theorem nqubit_angles_spec_witness :
    nqubit_angles ANGLES_6s 1 ≠ none ∧ ANGLES_6s.get? 3 = some [-22.5, 0] := by
  have h := nqubit_angles_spec 1 (by decide)
  refine ⟨h.1, ?_⟩
  have h2 := ((h.2 ANGLES_6s (by decide)).2.2 3 (by decide)).2
  exact h2.trans (by decide)

/-! ### `save_tsp`: in-place scaling and integer serialization -/

/-- Counterexample for C1 as stated: `save_tsp` does NOT leave its cost-matrix
argument unchanged — the in-place `adjacency_matrix *= 2` mutates the
caller's array. -/
theorem save_tsp_mutation_cex :
    (save_tsp [[0, 45 / 2], [45 / 2, 0]]).matrixAfter ≠ [[(0 : ℚ), 45 / 2], [45 / 2, 0]] := by
  decide

/-- C1 (amended): after a `save_tsp` call the caller's matrix has the same
shape but holds exactly twice each original entry, the result of the
in-place `adjacency_matrix *= 2`. -/
theorem save_tsp_mutation (M : List (List ℚ)) :
    (save_tsp M).matrixAfter.length = M.length ∧
    ∀ i j : ℕ, mget (save_tsp M).matrixAfter i j = (mget M i j).map (fun q => q * 2) := by
  constructor
  · simp [save_tsp]
  · intro i j
    show (((M.map (fun row => row.map (fun x => x * 2))).get? i).bind (fun row => row.get? j)) =
      ((M.get? i).bind (fun row => row.get? j)).map (fun q => q * 2)
    rw [List.get?_map]
    cases M.get? i with
    | none => rfl
    | some r =>
      show (r.map (fun x => x * 2)).get? j = (r.get? j).map (fun q => q * 2)
      rw [List.get?_map]

/-- Counterexample for C9 as stated: on the entry 9/10 the doubled value 9/5
is not an integer; `save_tsp` writes trunc(9/5) = 1 — it neither rounds to
the nearest integer (2) nor fails. -/
theorem save_tsp_round_cex :
    (save_tsp [[9 / 10]]).written = [[1]] ∧ (1 : ℤ) ≠ round ((9 : ℚ) / 10 * 2) := by
  refine ⟨by decide, by decide⟩

/-- C9 (amended): `save_tsp` writes the `%d`-truncation of twice each entry;
for entries that are exact halves of integers the truncation is exact (the
written integer equals 2× the entry, no rounding error); an entry whose
doubled value is not an integer is silently truncated toward zero, with no
failure. -/
theorem save_tsp_written (M : List (List ℚ)) :
    (∀ i j : ℕ, mget (save_tsp M).written i j = (mget M i j).map (fun q => pyTrunc (q * 2))) ∧
    (∀ q : ℚ, (∃ w : ℤ, q = (w : ℚ) / 2) → ((pyTrunc (q * 2) : ℚ) = q * 2)) := by
  constructor
  · intro i j
    show ((((M.map (fun row => row.map (fun x => x * 2))).map
        (fun row => row.map pyTrunc)).get? i).bind (fun row => row.get? j)) =
      ((M.get? i).bind (fun row => row.get? j)).map (fun q => pyTrunc (q * 2))
    rw [List.get?_map, List.get?_map]
    cases M.get? i with
    | none => rfl
    | some r =>
      show ((r.map (fun x => x * 2)).map pyTrunc).get? j =
        (r.get? j).map (fun q => pyTrunc (q * 2))
      rw [List.get?_map, List.get?_map]
      cases r.get? j <;> rfl
  · rintro q ⟨w, rfl⟩
    have h2 : ((w : ℚ) / 2) * 2 = (w : ℚ) := div_mul_cancel₀ _ two_ne_zero
    rw [h2, pyTrunc]
    by_cases hw : (0 : ℚ) ≤ (w : ℚ)
    · rw [if_pos hw, Int.floor_intCast]
    · rw [if_neg hw, Int.ceil_intCast]

/-- Witness for C9's amended theorem: the entry 45/2 (the cost 22.5) doubles
to the exact integer 45. -/
theorem save_tsp_written_witness :
    ((pyTrunc (((45 : ℚ) / 2) * 2) : ℚ) = ((45 : ℚ) / 2) * 2) :=
  (save_tsp_written [[45 / 2]]).2 ((45 : ℚ) / 2) ⟨45, by norm_num⟩

/-! ### C10: entry values of the matrices the pipeline produces -/

theorem angles_comp_mem :
    ∀ s ∈ ANGLES_6s, ∀ x ∈ s, x ∈ ([0, 45, 22.5, -22.5, -45] : List ℚ) := by decide

theorem diff_val_mem :
    ∀ x ∈ ([0, 45, 22.5, -22.5, -45] : List ℚ), ∀ y ∈ ([0, 45, 22.5, -22.5, -45] : List ℚ),
      |y - x| ∈ ([0, 22.5, 45, 67.5, 90] : List ℚ) := by decide

theorem entry_val_props :
    ∀ q ∈ ([0, 22.5, 45, 67.5, 90] : List ℚ),
      (q / (45 / 2)).den = 1 ∧ 0 ≤ q ∧ q ≤ 90 ∧ (q * 2).den = 1 := by decide

/-- C10: every entry q of the adjacency matrix built from any n-qubit (n ≥ 1)
expansion of the base table is an integer multiple of 22.5 (q / (45/2) is a
rational with denominator 1) lying in [0, 90], and doubling it yields an
exact integer — the ×2 serialization scaling of `save_tsp` is lossless on
every matrix the pipeline produces. -/
theorem pipeline_entry_vals (n : ℤ) (hn : 1 ≤ n) (rows M : List (List ℚ))
    (hrows : nqubit_angles ANGLES_6s n = some rows) (hM : adj_mat rows = some M) :
    ∀ r ∈ M, ∀ q ∈ r, (q / (45 / 2)).den = 1 ∧ 0 ≤ q ∧ q ≤ 90 ∧ (q * 2).den = 1 := by
  have hcomp : ∀ r ∈ rows, ∀ x ∈ r, x ∈ ([0, 45, 22.5, -22.5, -45] : List ℚ) := by
    have hEq := nqubit_angles_eq ANGLES_6s n hn rows hrows
    subst hEq
    intro r hr x hx
    rcases List.mem_map.mp hr with ⟨t, ht, rfl⟩
    rcases List.mem_flatten.mp hx with ⟨s, hs, hxs⟩
    exact angles_comp_mem s ((cartesianPower_mem ANGLES_6s n.toNat t ht).2 s hs) x hxs
  intro r hr q hq
  have h1 : some r ∈ rows.map (fun ai => optList (rows.map (fun aj => npMax (absDiffs ai aj)))) :=
    optList_mem _ _ hM r hr
  rcases List.mem_map.mp h1 with ⟨ai, hai, hFai⟩
  have h2 : some q ∈ rows.map (fun aj => npMax (absDiffs ai aj)) :=
    optList_mem _ _ hFai q hq
  rcases List.mem_map.mp h2 with ⟨aj, haj, hnpm⟩
  rcases List.get?_of_mem (npMax_spec _ _ hnpm).1 with ⟨k, hk⟩
  rcases (List.get?_zipWith_eq_some _ _ _ _ _).mp hk with ⟨x, y, hx, hy, hxy⟩
  have hq5 : q ∈ ([0, 22.5, 45, 67.5, 90] : List ℚ) := by
    rw [← hxy]
    exact diff_val_mem x (hcomp ai hai x (List.get?_mem hx)) y (hcomp aj haj y (List.get?_mem hy))
  exact entry_val_props q hq5

/-- Witness for C10: n = 1, the one-qubit matrix, its row 1, entry 67.5. -/
theorem pipeline_entry_vals_witness :
    ((67.5 : ℚ) / (45 / 2)).den = 1 ∧ (0 : ℚ) ≤ 67.5 ∧ (67.5 : ℚ) ≤ 90 ∧
      ((67.5 : ℚ) * 2).den = 1 :=
  pipeline_entry_vals 1 (by decide) ANGLES_6s ADJ1 (by decide) (by decide)
    [45, 0, 22.5, 67.5, 45, 45] (by decide) 67.5 (by decide)

/-! ### `get_projs` parsing -/

/-- Counterexample for C8 as stated: (i) a solution file whose two integer
tokens are separated by TWO spaces fails although every whitespace-separated
token is an integer and the token count matches the declared dimension 2
(the parser splits on single spaces, producing an empty token on which
`int("")` raises); (ii) a file whose declared dimension 3 disagrees with the
2 parsed indices is accepted — no length check is performed. -/
theorem get_projs_cex :
    get_projs [['2'], ['0', ' ', ' ', '1']] = none ∧
    get_projs [['3'], ['0', ' ', '1']] = some [0, 1] := by
  refine ⟨by decide, by decide⟩

/-- C8 (amended): `get_projs` discards the first line without examining it
(the result never depends on the header line, so no dimension check occurs),
fails whenever some single-space-delimited token — including an empty token
produced by consecutive spaces — is not an integer literal, and on
well-formed files returns the indices concatenated across the remaining
lines. -/
theorem get_projs_spec :
    (∀ a b rest, get_projs (a :: rest) = get_projs (b :: rest)) ∧
    (∀ fileLines tok, tok ∈ solTokens fileLines → pyInt tok = none →
      get_projs fileLines = none) ∧
    get_projs [['6'], ['0', ' ', '5', ' ', '3'], ['4', ' ', '1', ' ', '2']] =
      some [0, 5, 3, 4, 1, 2] := by
  refine ⟨?_, ?_, by decide⟩
  · intro a b rest
    rfl
  · intro fileLines tok htok hbad
    unfold get_projs
    exact optList_map_none pyInt _ tok htok hbad

/-- Witness for C8's amended theorem: changing the header line does not
change the parse, and a non-integer token fails. -/
theorem get_projs_spec_witness :
    get_projs [['9'], ['7']] = get_projs [['8'], ['7']] ∧
    get_projs [['2'], ['x']] = none :=
  ⟨get_projs_spec.1 ['9'] ['8'] [['7']],
   get_projs_spec.2.1 [['2'], ['x']] ['x'] (by decide) (by decide)⟩

end TomoTsp
